import Mathlib

/-!
Verification development for the GenericCobolIDE application (`src/app.py`).

The file shallowly embeds the two verifiable cores of the program:

* the syntax classifier of `CobolHighlighter` (`__init__` builds an ordered
  rule list of keyword, string-literal and comment regular expressions;
  `highlightBlock` applies each rule's global matches in order, each match
  overwriting the per-character format of its range), and
* the session / compile logic of `CobolIDE` (`handle_new_file`,
  `_open_file`, `_save_to_path`, `handle_compile_cobol`), with the
  interactive collaborators (file dialogs, the prompt, the spawned process)
  abstracted as explicit inputs.

Text is modelled as `List Char`; a regular expression rule is modelled by a
function giving, for each start position, the length of the match the
pattern engine would produce there (leftmost, non-overlapping, global
matching is then a left-to-right scan).  Character classes follow the
engine's defaults for the escapes used in the source patterns: ASCII word
characters and ASCII whitespace.
-/

namespace CobolIDE

/-- ASCII word character, the character class used by the word-boundary
assertions of the keyword patterns in `CobolHighlighter.__init__`. -/
def isWordChar (c : Char) : Bool :=
  ('a' ≤ c && c ≤ 'z') || ('A' ≤ c && c ≤ 'Z') || ('0' ≤ c && c ≤ '9') || c == '_'

/-- ASCII whitespace, the character class of the whitespace escape in the
comment pattern of `CobolHighlighter.__init__`. -/
def isSpaceChar (c : Char) : Bool :=
  c == ' ' || c == '\t' || c == '\n' || c == '\r' || c == '\x0b' || c == '\x0c'

/-- Display categories of the three kinds of highlighting rules (keyword
format, string format, comment format in `CobolHighlighter.__init__`). -/
inductive Category
  | Keyword
  | StringLiteral
  | Comment
deriving DecidableEq, Repr

/-- The COBOL keyword vocabulary, verbatim from `CobolHighlighter.__init__`. -/
def keywords : List String :=
  ["ACCEPT", "ADD", "CALL", "CANCEL", "COMPUTE", "CONTINUE",
   "DELETE", "DISPLAY", "DIVIDE", "ELSE", "END-CALL", "END-IF",
   "EVALUATE", "GO", "IF", "INITIALIZE", "INSPECT", "MOVE",
   "MULTIPLY", "OPEN", "PERFORM", "READ", "REPLACE", "RETURN",
   "REWRITE", "SEARCH", "STOP", "STRING", "SUBTRACT", "UNSTRING",
   "WRITE"]

/-- One highlighting rule: a whole-word keyword pattern, a non-greedy
quoted-literal pattern for a given quote character, or the line-comment
pattern. -/
inductive Rule
  | kw (w : String)
  | strLit (q : Char)
  | comment
deriving DecidableEq

/-- The display category a rule's format carries. -/
def catOf : Rule → Category
  | .kw _ => .Keyword
  | .strLit _ => .StringLiteral
  | .comment => .Comment

/-- `self.highlighting_rules`: keyword rules in vocabulary order, then the
double-quote and single-quote string rules, then the comment rule. -/
def highlighting_rules : List Rule :=
  keywords.map Rule.kw ++ [Rule.strLit '"', Rule.strLit '\'', Rule.comment]

/-- `w` occurs verbatim in `cs` starting at position `s`. -/
def occursAt (w cs : List Char) (s : Nat) : Bool :=
  decide (s + w.length ≤ cs.length) &&
    (List.range w.length).all fun j => cs.getD (s + j) ' ' == w.getD j ' '

/-- Word-boundary assertion before position `s`, for a pattern whose first
character is a word character (every keyword starts with a letter): the
position is the start of the text or is preceded by a non-word character. -/
def leftBoundary (cs : List Char) (s : Nat) : Bool :=
  s == 0 || !isWordChar (cs.getD (s - 1) ' ')

/-- Word-boundary assertion at position `e`, for a pattern whose last
character is a word character (every keyword ends with a letter): the
position is the end of the text or holds a non-word character. -/
def rightBoundary (cs : List Char) (e : Nat) : Bool :=
  e == cs.length || !isWordChar (cs.getD e ' ')

/-- Match attempt of a whole-word keyword pattern at position `s`: the
keyword occurs there with word boundaries on both sides. -/
def kwMatchAt (w cs : List Char) (s : Nat) : Option Nat :=
  if occursAt w cs s && leftBoundary cs s && rightBoundary cs (s + w.length) then
    some w.length
  else none

/-- Position of the closing quote for a non-greedy quoted literal: index of
the first occurrence of `q`, reachable without crossing a newline (the any
character metacharacter of the pattern does not match a newline). -/
def findClose (q : Char) : List Char → Option Nat
  | [] => none
  | c :: rest =>
    if c == q then some 0
    else if c == '\n' then none
    else (findClose q rest).map (· + 1)

/-- Match attempt of a non-greedy quoted-literal pattern at position `s`:
an opening quote at `s` and the nearest closing quote after it, with no
intervening newline; length spans both quotes. -/
def strMatchAt (q : Char) (cs : List Char) (s : Nat) : Option Nat :=
  if decide (s < cs.length) && cs.getD s ' ' == q then
    (findClose q (cs.drop (s + 1))).map (fun k => k + 2)
  else none

/-- Length of the maximal whitespace prefix of the text. -/
def wsPrefixLen (cs : List Char) : Nat := (cs.takeWhile isSpaceChar).length

/-- Match attempt of the comment pattern at position `s`: anchored to the
start of the text, it matches the whitespace prefix, the two marker
characters, and greedily everything up to the next newline or end. -/
def commentMatchAt (cs : List Char) (s : Nat) : Option Nat :=
  if s == 0 then
    if cs.getD (wsPrefixLen cs) ' ' == '*' && cs.getD (wsPrefixLen cs + 1) ' ' == '>' then
      some (wsPrefixLen cs + 2 +
        ((cs.drop (wsPrefixLen cs + 2)).takeWhile (fun c => !(c == '\n'))).length)
    else none
  else none

/-- Match attempt of a rule's pattern at a given position. -/
def matchAt : Rule → List Char → Nat → Option Nat
  | .kw w, cs, s => kwMatchAt w.toList cs s
  | .strLit q, cs, s => strMatchAt q cs s
  | .comment, cs, s => commentMatchAt cs s

/-- Global matching of one rule over the text, as the pattern engine's
match iterator performs it: scan positions left to right, report each
match, and resume right after a reported match.  The scan moves right at
least one position per step, so a fuel of `cs.length` (supplied by
`scanMatches`) always suffices. -/
def scanFromFuel (r : Rule) (cs : List Char) : Nat → Nat → List (Nat × Nat)
  | 0, _ => []
  | fuel + 1, i =>
    if i < cs.length then
      match matchAt r cs i with
      | some L =>
        if 0 < L then (i, L) :: scanFromFuel r cs fuel (i + L)
        else scanFromFuel r cs fuel (i + 1)
      | none => scanFromFuel r cs fuel (i + 1)
    else []

/-- All matches of a rule over the text, as `(start, length)` pairs in
left-to-right order. -/
def scanMatches (r : Rule) (cs : List Char) : List (Nat × Nat) :=
  scanFromFuel r cs cs.length 0

/-- Overwrite the categories of the positions a match covers; `i` is the
absolute position of the first list element. -/
def paintFrom (c : Category) (m : Nat × Nat) : List (Option Category) → Nat → List (Option Category)
  | [], _ => []
  | x :: xs, i => (if m.1 ≤ i ∧ i < m.1 + m.2 then some c else x) :: paintFrom c m xs (i + 1)

/-- One iteration of the rule loop of `highlightBlock`: paint every match
of the rule, in order, over the working category array. -/
def applyRule (a : List (Option Category)) (r : Rule) (cs : List Char) : List (Option Category) :=
  (scanMatches r cs).foldl (fun b m => paintFrom (catOf r) m b 0) a

/-- `highlightBlock`: starting from an unformatted line, apply every rule
in declared order, later rules overwriting earlier ones on overlap.  The
result gives the final display category of every character position. -/
def classify (cs : List Char) : List (Option Category) :=
  highlighting_rules.foldl (fun a r => applyRule a r cs) (List.replicate cs.length none)

/-- Final category of position `i` (none beyond the end of the text). -/
def classifyAt (cs : List Char) (i : Nat) : Option Category :=
  (classify cs).getD i none

/-- Some match of the rule covers position `i`. -/
def coveredBy (r : Rule) (cs : List Char) (i : Nat) : Bool :=
  (scanMatches r cs).any fun m => decide (m.1 ≤ i) && decide (i < m.1 + m.2)

/-- Specification-side reading of the overwrite semantics: the category of
a position is that of the last rule, in application order, one of whose
matches covers the position. -/
def lastCoveringCat (cs : List Char) (i : Nat) : Option Category :=
  if i < cs.length then
    (highlighting_rules.reverse.find? fun r => coveredBy r cs i).map catOf
  else none

/-! ### Session state (`CobolIDE` document lifecycle)

The session consists of the current file path (`self.current_file`, `none`
for a new/unsaved buffer), the editor content, and the dirty flag (the
editor document's modified flag, reported by `_document_is_modified`).
File dialogs, read/write results and the unsaved-changes prompt are
interactive collaborators and appear as explicit inputs. -/

structure Session where
  path : Option String
  content : String
  dirty : Bool
deriving DecidableEq, Repr

/-- `_open_file`: on a successful read the editor content is replaced, the
path recorded, and the modified flag cleared; on a read error only an
error dialog is shown and the session is left unchanged. -/
def open_file (s : Session) (filePath : String) (readResult : Except String String) : Session :=
  match readResult with
  | .ok text => { path := some filePath, content := text, dirty := false }
  | .error _ => s

/-- `_save_to_path`: on a successful write the path is recorded and the
modified flag cleared; on a write error the session is left unchanged
(the path assignment comes after the write in the source). -/
def save_to_path (s : Session) (filePath : String) (writeResult : Except String Unit) : Session :=
  match writeResult with
  | .ok _ => { s with path := some filePath, dirty := false }
  | .error _ => s

/-- Modelled from the spec: the editor widget (an external collaborator;
the document's modified-flag tracking is not code of this repository)
marks the document modified on every content mutation, so a content
mutation sets the session's dirty flag. -/
def set_content (s : Session) (text : String) : Session :=
  { s with content := text, dirty := true }

/-- Reply of the unsaved-changes prompt `_prompt_save_discard_cancel`
(its three buttons; the source encodes them as an optional boolean). -/
inductive PromptReply
  | save
  | discard
  | cancel
deriving DecidableEq

/-- Outcome of `handle_new_file`: either the pending operation is aborted
with the session returned untouched (the source's early `return`, the
spec's UnsavedChangesPending), or the new empty session is created. -/
inductive NewFileResult
  | aborted (s : Session)
  | created (s : Session)
deriving DecidableEq

/-- The session created by the reset branch of `handle_new_file`: the
editor is cleared and the current file forgotten.  The cleared dirty flag
is modelled from the spec (the reset of the editor document's modified
state on New is external collaborator behavior, not code under src). -/
def emptySession : Session := { path := none, content := "", dirty := false }

/-- `handle_new_file`: if the session is dirty the prompt is shown, and
the operation proceeds only when its result is the saved reply (the
source tests the returned optional boolean for truthiness, so both the
discard and the cancel reply abort with the session unchanged); on a
non-dirty session, or after a save reply, the session is reset. -/
def handle_new_file (s : Session) (reply : PromptReply) : NewFileResult :=
  if s.dirty then
    match reply with
    | .save => .created emptySession
    | .discard => .aborted s
    | .cancel => .aborted s
  else .created emptySession

/-! ### Compile coordinator (`handle_compile_cobol`)

The handler's interactive and platform inputs appear explicitly: the
output-path dialog result, the three environment variables it reads, the
platform identifier, and the spawned process's outcome (a function of the
request, so the result mapping can be stated for every possible spawn).
The handler returns its outcome together with the request it spawned, if
any, so that not-spawning is observable. -/

/-- Prefix test on strings, used for the platform dispatch (a
kernel-computable equivalent of the standard prefix test). -/
def platformStartsWith (s pre : String) : Bool := pre.toList.isPrefixOf s.toList

/-- Platform default toolchain root for Windows platforms. -/
def winGnubaseDefault : String := "C:\\GnuCOBOL"

/-- Platform default toolchain root for darwin/linux platforms. -/
def posixGnubaseDefault : String := "/usr/local"

/-- Pythonic falsiness of an optional string: absent or empty. -/
def falsyStr : Option String → Bool
  | none => true
  | some s => s == ""

/-- Toolchain root resolution: the environment override when it is set
and non-empty, else the platform-keyed default, else unresolved. -/
def resolveGnubase (envGNUBASE : Option String) (platform : String) : Option String :=
  if !falsyStr envGNUBASE then envGNUBASE
  else if platformStartsWith platform "win" then some winGnubaseDefault
  else if platformStartsWith platform "darwin" || platformStartsWith platform "linux" then some posixGnubaseDefault
  else none

/-- Directory separator inserted by path joining on the platform. -/
def dirSep (platform : String) : String :=
  if platformStartsWith platform "win" then "\\" else "/"

/-- Separator of path-list environment variables on the platform. -/
def envPathSep (platform : String) : String :=
  if platformStartsWith platform "win" then ";" else ":"

/-- Path joining, modelled as separator insertion (none of the joined
components here is empty, absolute, or separator-terminated). -/
def joinPath (platform a b : String) : String := a ++ dirSep platform ++ b

/-- Compiler executable name, platform-suffixed. -/
def cobcName (platform : String) : String :=
  if platformStartsWith platform "win" then "cobc.exe" else "cobc"

/-- The process invocation the handler constructs: argument vector and the
two environment variables it rewrites (COBPATH and PATH), plus the
recorded toolchain root. -/
structure CompileRequest where
  argv : List String
  gnubase : String
  cobpath : String
  searchPath : String
deriving DecidableEq, Repr

/-- Construction of the invocation: COBPATH gains the two toolchain lib
subdirectories in front of its previous value (empty default), PATH gains
the toolchain bin directory in front of its previous value, and the
argument vector is the resolved executable, the compile-and-link flag,
the output flag, the output path, and the source path. -/
def buildCompileRequest (platform gnubase : String) (envCOBPATH envPATH : Option String)
    (exePath srcPath : String) : CompileRequest :=
  { argv := [joinPath platform (joinPath platform gnubase "bin") (cobcName platform),
             "-x", "-o", exePath, srcPath]
    gnubase := gnubase
    cobpath := joinPath platform (joinPath platform gnubase "lib") "gnucobol"
        ++ envPathSep platform
        ++ joinPath platform (joinPath platform gnubase "lib") "cobc"
        ++ envPathSep platform ++ envCOBPATH.getD ""
    searchPath := joinPath platform gnubase "bin" ++ envPathSep platform ++ envPATH.getD "" }

/-- Outcome of the spawned process: it completed with an exit status and
captured streams, the executable was not found at spawn time, or some
other spawn-time error occurred. -/
inductive SpawnResult
  | completed (returncode : Int) (stdout stderr : String)
  | fileNotFound
  | spawnError (msg : String)
deriving DecidableEq

/-- Outcome of `handle_compile_cobol`, one constructor per exit of the
handler: the save-first warning (the spec's ConfigurationError for a
missing source file), a cancelled output dialog, the unsupported-platform
configuration error, success, failure carrying the diagnostic text shown
(the captured stderr, or the spawn error's text), and the distinct
compiler-not-found notice. -/
inductive CompileOutcome
  | noSourceFile
  | cancelled
  | configurationError
  | success
  | failure (diagnostics : String)
  | toolchainNotFound
deriving DecidableEq, Repr

/-- The try/except block around the process run: spawn the request and
map the outcome — zero exit to success, non-zero exit to failure carrying
the captured stderr, executable-not-found to the distinct toolchain
notice, any other spawn error to failure carrying the error's text. -/
def mapSpawn (req : CompileRequest) (run : CompileRequest → SpawnResult) :
    CompileOutcome × Option CompileRequest :=
  match run req with
  | .completed rc _ err => if rc = 0 then (.success, some req) else (.failure err, some req)
  | .fileNotFound => (.toolchainNotFound, some req)
  | .spawnError msg => (.failure msg, some req)

/-- `handle_compile_cobol`: refuse when no file is saved; stop when the
output dialog is cancelled; resolve the toolchain root or fail with the
configuration error; otherwise build the invocation, spawn it, and map
the spawn outcome.  The second component is the request spawned, or
`none` when no process was spawned. -/
def handle_compile_cobol (currentFile : Option String) (exeDialog : String)
    (envGNUBASE envCOBPATH envPATH : Option String) (platform : String)
    (run : CompileRequest → SpawnResult) : CompileOutcome × Option CompileRequest :=
  if falsyStr currentFile then (.noSourceFile, none)
  else if exeDialog = "" then (.cancelled, none)
  else
    match resolveGnubase envGNUBASE platform with
    | none => (.configurationError, none)
    | some g =>
      mapSpawn (buildCompileRequest platform g envCOBPATH envPATH exeDialog (currentFile.getD ""))
        run

/-! ### Painting lemmas: the per-position reading of `highlightBlock` -/

theorem length_paintFrom (c : Category) (m : Nat × Nat) :
    ∀ (a : List (Option Category)) (i : Nat), (paintFrom c m a i).length = a.length
  | [], _ => rfl
  | _ :: xs, i => by simp [paintFrom, length_paintFrom c m xs (i + 1)]

theorem getD_paintFrom (c : Category) (m : Nat × Nat) :
    ∀ (a : List (Option Category)) (i j : Nat),
      (paintFrom c m a i).getD j none =
        if m.1 ≤ i + j ∧ i + j < m.1 + m.2 ∧ j < a.length then some c else a.getD j none
  | [], i, j => by simp [paintFrom]
  | x :: xs, i, 0 => by
      simp only [paintFrom, List.getD_cons_zero, Nat.add_zero, List.length_cons]
      have h : (m.1 ≤ i ∧ i < m.1 + m.2) ↔ (m.1 ≤ i ∧ i < m.1 + m.2 ∧ 0 < xs.length + 1) := by
        omega
      rw [if_congr h rfl rfl]
  | x :: xs, i, j + 1 => by
      have ih := getD_paintFrom c m xs (i + 1) j
      simp only [paintFrom, List.getD_cons_succ, List.length_cons, ih]
      have h : (m.1 ≤ i + 1 + j ∧ i + 1 + j < m.1 + m.2 ∧ j < xs.length) ↔
          (m.1 ≤ i + (j + 1) ∧ i + (j + 1) < m.1 + m.2 ∧ j + 1 < xs.length + 1) := by
        omega
      rw [if_congr h rfl rfl]

theorem length_foldl_paint (c : Category) :
    ∀ (ms : List (Nat × Nat)) (a : List (Option Category)),
      (ms.foldl (fun b m => paintFrom c m b 0) a).length = a.length
  | [], _ => rfl
  | m :: ms, a => by
      simpa [length_paintFrom] using length_foldl_paint c ms (paintFrom c m a 0)

theorem getD_foldl_paint (c : Category) (i : Nat) :
    ∀ (ms : List (Nat × Nat)) (a : List (Option Category)),
      (ms.foldl (fun b m => paintFrom c m b 0) a).getD i none =
        if ((ms.any fun m => decide (m.1 ≤ i) && decide (i < m.1 + m.2)) = true ∧ i < a.length)
        then some c else a.getD i none
  | [], a => by simp
  | m :: ms, a => by
      have ih := getD_foldl_paint c i ms (paintFrom c m a 0)
      have hpaint := getD_paintFrom c m a 0 i
      simp only [Nat.zero_add] at hpaint
      simp only [List.foldl_cons, ih, length_paintFrom, hpaint, List.any_cons]
      by_cases hb : (ms.any fun m => decide (m.1 ≤ i) && decide (i < m.1 + m.2)) = true
      · simp only [hb]
        by_cases h2 : i < a.length <;> simp [h2]
      · have hb' : (ms.any fun m => decide (m.1 ≤ i) && decide (i < m.1 + m.2)) = false := by
          revert hb
          cases ms.any fun m => decide (m.1 ≤ i) && decide (i < m.1 + m.2) <;> simp
        simp only [hb']
        by_cases h1 : m.1 ≤ i ∧ i < m.1 + m.2 <;> by_cases h2 : i < a.length <;>
          simp [h1, h2]

theorem length_applyRule (a : List (Option Category)) (r : Rule) (cs : List Char) :
    (applyRule a r cs).length = a.length :=
  length_foldl_paint _ _ _

theorem getD_applyRule (a : List (Option Category)) (r : Rule) (cs : List Char) (i : Nat) :
    (applyRule a r cs).getD i none =
      if coveredBy r cs i = true ∧ i < a.length then some (catOf r) else a.getD i none :=
  getD_foldl_paint _ _ _ _

theorem length_foldl_rules (cs : List Char) :
    ∀ (rs : List Rule) (a : List (Option Category)),
      (rs.foldl (fun b r => applyRule b r cs) a).length = a.length
  | [], _ => rfl
  | r :: rs, a => by
      simpa [length_applyRule] using length_foldl_rules cs rs (applyRule a r cs)

theorem getD_foldl_rules (cs : List Char) (i : Nat) :
    ∀ (rs : List Rule) (a : List (Option Category)), i < a.length →
      (rs.foldl (fun b r => applyRule b r cs) a).getD i none =
        match rs.reverse.find? (fun r => coveredBy r cs i) with
        | some r => some (catOf r)
        | none => a.getD i none
  | [], a, _ => by simp
  | r :: rs, a, h => by
      have ih := getD_foldl_rules cs i rs (applyRule a r cs)
        (by rw [length_applyRule]; exact h)
      rw [List.foldl_cons, ih, List.reverse_cons, List.find?_append]
      cases hfind : rs.reverse.find? (fun r => coveredBy r cs i) with
      | some r' => simp
      | none =>
          rw [getD_applyRule]
          by_cases hc : coveredBy r cs i = true <;>
            simp [List.find?, hc, h]

theorem classify_length (cs : List Char) : (classify cs).length = cs.length := by
  simpa [classify] using length_foldl_rules cs highlighting_rules (List.replicate cs.length none)

/-- Refinement of the rule loop of `highlightBlock` to its specification
reading: the final category of every position is the category of the last
rule, in application order, one of whose matches covers the position. -/
theorem classifyAt_eq_lastCoveringCat (cs : List Char) (i : Nat) :
    classifyAt cs i = lastCoveringCat cs i := by
  by_cases h : i < cs.length
  · have := getD_foldl_rules cs i highlighting_rules (List.replicate cs.length none)
      (by simpa using h)
    simp only [classifyAt, classify, lastCoveringCat, if_pos h, this]
    cases highlighting_rules.reverse.find? (fun r => coveredBy r cs i) <;> simp
  · have hlen : (classify cs).length ≤ i := by rw [classify_length]; omega
    rw [classifyAt, List.getD_eq_default _ _ hlen, lastCoveringCat, if_neg h]

/-! ### Scan lemmas: soundness, bounds and completeness of global matching -/

theorem mem_scanFromFuel (r : Rule) (cs : List Char) :
    ∀ (fuel i : Nat) {s L : Nat}, (s, L) ∈ scanFromFuel r cs fuel i →
      i ≤ s ∧ 0 < L ∧ matchAt r cs s = some L := by
  intro fuel
  induction fuel with
  | zero => intro i s L h; simp [scanFromFuel] at h
  | succ fuel ih =>
    intro i s L h
    rw [scanFromFuel] at h
    split at h
    · split at h
      · next L' hm =>
          split at h
          · next hL =>
              rcases List.mem_cons.mp h with heq | hmem
              · obtain ⟨rfl, rfl⟩ : s = i ∧ L = L' := by
                  constructor <;> [exact congrArg Prod.fst heq; exact congrArg Prod.snd heq]
                exact ⟨Nat.le_refl _, hL, hm⟩
              · have := ih (i + L') hmem
                exact ⟨by omega, this.2⟩
          · have := ih (i + 1) h
            exact ⟨by omega, this.2⟩
      · next hm =>
          have := ih (i + 1) h
          exact ⟨by omega, this.2⟩
    · simp at h

theorem mem_scanMatches (r : Rule) (cs : List Char) {s L : Nat}
    (h : (s, L) ∈ scanMatches r cs) : 0 < L ∧ matchAt r cs s = some L :=
  (mem_scanFromFuel r cs cs.length 0 h).2

theorem getD_lt_length {α : Type} [Inhabited α] {l : List α} {n : Nat} {d : α}
    (h : l.getD n d ≠ d) : n < l.length := by
  by_contra hn
  rw [List.getD_eq_default _ _ (by omega)] at h
  exact h rfl

theorem occursAt_iff (w cs : List Char) (s : Nat) :
    occursAt w cs s = true ↔
      s + w.length ≤ cs.length ∧ ∀ j, j < w.length → cs.getD (s + j) ' ' = w.getD j ' ' := by
  simp [occursAt, List.all_eq_true]

theorem findClose_some {q : Char} :
    ∀ {l : List Char} {k : Nat}, findClose q l = some k →
      k < l.length ∧ l.getD k ' ' = q ∧ ∀ j, j < k → l.getD j ' ' ≠ q ∧ l.getD j ' ' ≠ '\n' := by
  intro l
  induction l with
  | nil => intro k h; simp [findClose] at h
  | cons c rest ih =>
      intro k h
      rw [findClose] at h
      split at h
      · next hc =>
          have hk0 : k = 0 := by injection h with h0; omega
          subst hk0
          refine ⟨Nat.succ_pos _, ?_, fun j hj => absurd hj (by omega)⟩
          rw [List.getD_cons_zero]
          exact beq_iff_eq.mp hc
      · next hc =>
          split at h
          · simp at h
          · next hnl =>
              cases hf : findClose q rest with
              | none => rw [hf] at h; simp at h
              | some k' =>
                  rw [hf] at h
                  simp only [Option.map_some', Option.some.injEq] at h
                  obtain ⟨hk', hget, hprev⟩ := ih hf
                  subst h
                  refine ⟨by simp; omega, by simpa using hget, ?_⟩
                  intro j hj
                  cases j with
                  | zero =>
                      simp only [List.getD_cons_zero]
                      exact ⟨by simpa using hc, by simpa using hnl⟩
                  | succ j' =>
                      simp only [List.getD_cons_succ]
                      exact hprev j' (by omega)

theorem findClose_none {q : Char} :
    ∀ {l : List Char}, (∀ j, j < l.length → l.getD j ' ' ≠ q) → findClose q l = none := by
  intro l
  induction l with
  | nil => intro _; rfl
  | cons c rest ih =>
      intro hn
      have hc : (c == q) = false := by
        have h0 := hn 0 (by simp)
        simpa using h0
      rw [findClose, hc, if_neg (by decide : ¬(false = true))]
      split
      · rfl
      · have hrest : ∀ j, j < rest.length → rest.getD j ' ' ≠ q := by
          intro j hj
          have h1 := hn (j + 1) (by simp; omega)
          simpa using h1
        rw [ih hrest]
        rfl

theorem strMatchAt_eq_some {q : Char} {cs : List Char} {s L : Nat} :
    strMatchAt q cs s = some L ↔
      s < cs.length ∧ cs.getD s ' ' = q ∧
        ∃ k, findClose q (cs.drop (s + 1)) = some k ∧ L = k + 2 := by
  rw [strMatchAt]
  split
  · next hc =>
      simp only [Bool.and_eq_true, decide_eq_true_eq, beq_iff_eq] at hc
      cases hf : findClose q (cs.drop (s + 1)) with
      | none => simp [hc]
      | some k =>
          rw [Option.map_some']
          simp only [Option.some.injEq]
          constructor
          · intro h
            exact ⟨hc.1, hc.2, k, rfl, h.symm⟩
          · rintro ⟨-, -, k', hk', rfl⟩
            omega
  · next hc =>
      constructor
      · intro h; cases h
      · rintro ⟨h1, h2, -⟩
        refine absurd ?_ hc
        rw [decide_eq_true h1, Bool.true_and, beq_iff_eq]
        exact h2

theorem takeWhile_length_le {α : Type} (p : α → Bool) :
    ∀ (l : List α), (l.takeWhile p).length ≤ l.length
  | [] => by simp
  | c :: rest => by
      rw [List.takeWhile]
      split
      · simpa using takeWhile_length_le p rest
      · simp

theorem strMatchAt_bounds {q : Char} {cs : List Char} {s L : Nat}
    (h : strMatchAt q cs s = some L) : 0 < L ∧ s + L ≤ cs.length := by
  obtain ⟨hs, -, k, hk, rfl⟩ := strMatchAt_eq_some.mp h
  obtain ⟨hklen, -, -⟩ := findClose_some hk
  have : (cs.drop (s + 1)).length = cs.length - (s + 1) := by simp
  omega

theorem commentMatchAt_eq_some {cs : List Char} {s L : Nat}
    (h : commentMatchAt cs s = some L) :
    s = 0 ∧ cs.getD (wsPrefixLen cs) ' ' = '*' ∧ cs.getD (wsPrefixLen cs + 1) ' ' = '>' ∧
      L = wsPrefixLen cs + 2 +
        ((cs.drop (wsPrefixLen cs + 2)).takeWhile (fun c => !(c == '\n'))).length := by
  rw [commentMatchAt] at h
  split at h
  · next hs =>
      split at h
      · next hm =>
          simp only [Bool.and_eq_true, beq_iff_eq] at hm
          simp only [Option.some.injEq] at h
          exact ⟨by simpa using hs, hm.1, hm.2, h.symm⟩
      · exact absurd h (by simp)
  · exact absurd h (by simp)

theorem matchAt_bounds {r : Rule} {cs : List Char} {s L : Nat}
    (h : matchAt r cs s = some L) : s + L ≤ cs.length := by
  cases r with
  | kw w =>
      rw [matchAt, kwMatchAt] at h
      split at h
      · next hcond =>
          simp only [Bool.and_eq_true] at hcond
          have := (occursAt_iff _ _ _).mp hcond.1.1
          simp only [Option.some.injEq] at h
          omega
      · simp at h
  | strLit q => exact (strMatchAt_bounds h).2
  | comment =>
      obtain ⟨rfl, h1, h2, rfl⟩ := commentMatchAt_eq_some h
      have hk1 : wsPrefixLen cs + 1 < cs.length :=
        getD_lt_length (d := ' ') (by rw [h2]; decide)
      have htw : ((cs.drop (wsPrefixLen cs + 2)).takeWhile (fun c => !(c == '\n'))).length ≤
          cs.length - (wsPrefixLen cs + 2) := by
        calc ((cs.drop (wsPrefixLen cs + 2)).takeWhile (fun c => !(c == '\n'))).length
            ≤ (cs.drop (wsPrefixLen cs + 2)).length := takeWhile_length_le _ _
          _ = cs.length - (wsPrefixLen cs + 2) := by simp
      omega

theorem scanFromFuel_complete (r : Rule) (cs : List Char)
    (hpos : ∀ s L, matchAt r cs s = some L → 0 < L)
    (hnov : ∀ s₁ L₁ s₂ L₂, matchAt r cs s₁ = some L₁ → matchAt r cs s₂ = some L₂ →
      s₁ < s₂ → s₁ + L₁ ≤ s₂) :
    ∀ (fuel i s L : Nat), cs.length ≤ fuel + i → i ≤ s → matchAt r cs s = some L →
      (s, L) ∈ scanFromFuel r cs fuel i := by
  intro fuel
  induction fuel with
  | zero =>
      intro i s L hfuel his hm
      have h1 := matchAt_bounds hm
      have h2 := hpos s L hm
      omega
  | succ fuel ih =>
      intro i s L hfuel his hm
      have hslen : s < cs.length := by
        have h1 := matchAt_bounds hm
        have h2 := hpos s L hm
        omega
      have hilen : i < cs.length := by omega
      rw [scanFromFuel, if_pos hilen]
      split
      · next L' hmi =>
          rw [if_pos (hpos i L' hmi)]
          by_cases hsi : s = i
          · subst hsi
            rw [hm] at hmi
            obtain rfl : L = L' := by injection hmi
            exact List.mem_cons_self _ _
          · have hlt : i < s := by omega
            have hsep := hnov i L' s L hmi hm hlt
            refine List.mem_cons_of_mem _ (ih (i + L') s L ?_ (by omega) hm)
            have := hpos i L' hmi
            omega
      · next hmi =>
          have hsi : i ≠ s := fun he => by rw [he, hm] at hmi; cases hmi
          exact ih (i + 1) s L (by omega) (by omega) hm

/-! ### Keyword whole-word matching: overlap-freedom of the vocabulary -/

theorem kwMatchAt_eq_some {w cs : List Char} {s L : Nat} :
    kwMatchAt w cs s = some L ↔
      occursAt w cs s = true ∧ leftBoundary cs s = true ∧
        rightBoundary cs (s + w.length) = true ∧ L = w.length := by
  rw [kwMatchAt]
  split
  · next hcond =>
      simp only [Bool.and_eq_true] at hcond
      simp only [Option.some.injEq]
      exact ⟨fun h => ⟨hcond.1.1, hcond.1.2, hcond.2, h.symm⟩, fun h => h.2.2.2.symm⟩
  · next hcond =>
      simp only [Bool.and_eq_true] at hcond
      constructor
      · intro h; cases h
      · intro h
        exact absurd ⟨⟨h.1, h.2.1⟩, h.2.2.1⟩ hcond

/-- Shifted self-agreement of a word: every character of the word equals
the character `d` positions earlier, wherever both exist. -/
def shiftEq (w : List Char) (d : Nat) : Bool :=
  (List.range (w.length - d)).all fun j => w.getD (j + d) ' ' == w.getD j ' '

/-- A word is safe for whole-word matching if every nontrivial shifted
self-agreement is blocked by word characters at both boundary positions
of the shift, so that two boundary-checked occurrences can never
overlap. -/
def wholeWordSafe (w : List Char) : Bool :=
  (List.range w.length).all fun d =>
    d == 0 || !shiftEq w d ||
      (isWordChar (w.getD (d - 1) ' ') && isWordChar (w.getD (w.length - d) ' '))

theorem wholeWordSafe_spec {w : List Char} (hw : wholeWordSafe w = true) {d : Nat}
    (hd0 : 0 < d) (hdlen : d < w.length) (hshift : shiftEq w d = true) :
    isWordChar (w.getD (d - 1) ' ') = true ∧ isWordChar (w.getD (w.length - d) ' ') = true := by
  rw [wholeWordSafe, List.all_eq_true] at hw
  have := hw d (List.mem_range.mpr hdlen)
  simp only [Bool.or_eq_true, Bool.and_eq_true, beq_iff_eq, Bool.not_eq_true'] at this
  rcases this with (h | h) | h
  · omega
  · rw [h] at hshift
    exact absurd hshift Bool.false_ne_true
  · exact h

theorem shiftEq_of_occurs {w cs : List Char} {a b : Nat}
    (ha : occursAt w cs a = true) (hb : occursAt w cs b = true)
    (hab : a < b) (hover : b < a + w.length) : shiftEq w (b - a) = true := by
  obtain ⟨halen, haj⟩ := (occursAt_iff w cs a).mp ha
  obtain ⟨hblen, hbj⟩ := (occursAt_iff w cs b).mp hb
  rw [shiftEq, List.all_eq_true]
  intro j hj
  rw [List.mem_range] at hj
  have hjd : j + (b - a) < w.length := by omega
  have h1 : cs.getD (a + (j + (b - a))) ' ' = w.getD (j + (b - a)) ' ' := haj _ hjd
  have h2 : cs.getD (b + j) ' ' = w.getD j ' ' := hbj j (by omega)
  have he : a + (j + (b - a)) = b + j := by omega
  rw [he, h2] at h1
  show (w.getD (j + (b - a)) ' ' == w.getD j ' ') = true
  rw [beq_iff_eq]
  exact h1.symm

/-- Two boundary-checked matches of a whole-word-safe keyword never
overlap: the left boundary of the later match would have to sit on a word
character inside the earlier occurrence. -/
theorem kwMatchAt_no_overlap {w cs : List Char} (hw : wholeWordSafe w = true)
    {s₁ L₁ s₂ L₂ : Nat} (h₁ : kwMatchAt w cs s₁ = some L₁)
    (h₂ : kwMatchAt w cs s₂ = some L₂) (hlt : s₁ < s₂) : s₁ + L₁ ≤ s₂ := by
  obtain ⟨hocc₁, _, _, rfl⟩ := kwMatchAt_eq_some.mp h₁
  obtain ⟨hocc₂, hleft₂, _, rfl⟩ := kwMatchAt_eq_some.mp h₂
  by_contra hover
  have hover' : s₂ < s₁ + w.length := by omega
  have hshift := shiftEq_of_occurs hocc₁ hocc₂ hlt hover'
  set d := s₂ - s₁ with hd
  have hword := (wholeWordSafe_spec hw (by omega) (by omega) hshift).1
  rw [leftBoundary] at hleft₂
  have hs₂0 : (s₂ == 0) = false := by simp; omega
  rw [hs₂0, Bool.false_or, Bool.not_eq_true'] at hleft₂
  obtain ⟨_, haj⟩ := (occursAt_iff w cs s₁).mp hocc₁
  have hc : cs.getD (s₁ + (d - 1)) ' ' = w.getD (d - 1) ' ' := haj _ (by omega)
  have he : s₁ + (d - 1) = s₂ - 1 := by omega
  rw [he] at hc
  rw [hc] at hleft₂
  rw [hleft₂] at hword
  exact Bool.false_ne_true hword

/-- A keyword occurrence that fails a word boundary (the letters sit
inside a longer identifier) is covered by no boundary-checked match of
that keyword's rule: overlap with a hypothetical match elsewhere is again
excluded by whole-word safety. -/
theorem kwMatchAt_not_covering {w cs : List Char} (hw : wholeWordSafe w = true)
    {s : Nat} (hocc : occursAt w cs s = true)
    (hbnd : leftBoundary cs s = false ∨ rightBoundary cs (s + w.length) = false)
    {s₂ L₂ i : Nat} (h₂ : kwMatchAt w cs s₂ = some L₂)
    (hsi : s ≤ i) (his : i < s + w.length) : ¬(s₂ ≤ i ∧ i < s₂ + L₂) := by
  rintro ⟨hs₂i, his₂⟩
  obtain ⟨hocc₂, hleft₂, hright₂, rfl⟩ := kwMatchAt_eq_some.mp h₂
  obtain ⟨halen, haj⟩ := (occursAt_iff w cs s).mp hocc
  rcases Nat.lt_trichotomy s₂ s with hlt | rfl | hlt
  · -- the match starts before the plain occurrence
    set d := s - s₂ with hd
    have hdlen : d < w.length := by omega
    have hshift := shiftEq_of_occurs hocc₂ hocc hlt (by omega)
    have hword := (wholeWordSafe_spec hw (by omega) hdlen hshift).2
    rw [rightBoundary] at hright₂
    have hne : (s₂ + w.length == cs.length) = false := by simp; omega
    rw [hne, Bool.false_or, Bool.not_eq_true'] at hright₂
    have hc : cs.getD (s + (w.length - d)) ' ' = w.getD (w.length - d) ' ' :=
      haj _ (by omega)
    have he : s + (w.length - d) = s₂ + w.length := by omega
    rw [he] at hc
    rw [hc] at hright₂
    rw [hright₂] at hword
    exact Bool.false_ne_true hword
  · -- same start: the match's boundaries contradict the failed boundary
    rcases hbnd with hb | hb
    · rw [hleft₂] at hb; cases hb
    · rw [hright₂] at hb; cases hb
  · -- the match starts inside the plain occurrence
    set d := s₂ - s with hd
    have hdlen : d < w.length := by omega
    have hshift := shiftEq_of_occurs hocc hocc₂ hlt (by omega)
    have hword := (wholeWordSafe_spec hw (by omega) hdlen hshift).1
    rw [leftBoundary] at hleft₂
    have hs₂0 : (s₂ == 0) = false := by simp; omega
    rw [hs₂0, Bool.false_or, Bool.not_eq_true'] at hleft₂
    have hc : cs.getD (s + (d - 1)) ' ' = w.getD (d - 1) ' ' := haj _ (by omega)
    have he : s + (d - 1) = s₂ - 1 := by omega
    rw [he] at hc
    rw [hc] at hleft₂
    rw [hleft₂] at hword
    exact Bool.false_ne_true hword

/-! ### The keyword vocabulary is safe for whole-word matching -/

theorem keywords_ok :
    keywords.all (fun w => wholeWordSafe w.toList && decide (0 < w.toList.length)) = true := by
  decide

theorem keywords_upper : keywords.all (fun w => w.toList.all (fun c => !c.isLower)) = true := by
  decide

theorem keyword_wholeWordSafe {w : String} (hw : w ∈ keywords) : wholeWordSafe w.toList = true := by
  have h := List.all_eq_true.mp keywords_ok w hw
  rw [Bool.and_eq_true] at h
  exact h.1

theorem keyword_length_pos {w : String} (hw : w ∈ keywords) : 0 < w.toList.length := by
  have h := List.all_eq_true.mp keywords_ok w hw
  rw [Bool.and_eq_true] at h
  exact of_decide_eq_true h.2

theorem keyword_char_not_lower {w : String} (hw : w ∈ keywords) {c : Char}
    (hc : c ∈ w.toList) : c.isLower = false := by
  have h := List.all_eq_true.mp keywords_upper w hw
  have := List.all_eq_true.mp h c hc
  simpa using this

theorem kw_matchAt_pos {w : String} (hw : w ∈ keywords) (cs : List Char) :
    ∀ s L, matchAt (Rule.kw w) cs s = some L → 0 < L := by
  intro s L h
  obtain ⟨-, -, -, rfl⟩ := kwMatchAt_eq_some.mp h
  exact keyword_length_pos hw

theorem kw_noOverlap {w : String} (hw : w ∈ keywords) (cs : List Char) :
    ∀ s₁ L₁ s₂ L₂, matchAt (Rule.kw w) cs s₁ = some L₁ → matchAt (Rule.kw w) cs s₂ = some L₂ →
      s₁ < s₂ → s₁ + L₁ ≤ s₂ :=
  fun _ _ _ _ h₁ h₂ => kwMatchAt_no_overlap (keyword_wholeWordSafe hw) h₁ h₂

/-- A whole-word occurrence, in the words of the specification: the
keyword occurs verbatim and is bounded by a non-word character or the
unit boundary on both sides (the condition of the source's keyword
patterns). -/
def wholeWordAt (w cs : List Char) (s : Nat) : Bool :=
  occursAt w cs s && leftBoundary cs s && rightBoundary cs (s + w.length)

theorem kw_scan_mem {w : String} (hw : w ∈ keywords) {cs : List Char} {s : Nat}
    (h : wholeWordAt w.toList cs s = true) :
    (s, w.toList.length) ∈ scanMatches (Rule.kw w) cs := by
  rw [wholeWordAt, Bool.and_eq_true, Bool.and_eq_true] at h
  exact scanFromFuel_complete (Rule.kw w) cs (kw_matchAt_pos hw cs) (kw_noOverlap hw cs)
    cs.length 0 s w.toList.length (by omega) (Nat.zero_le _)
    (kwMatchAt_eq_some.mpr ⟨h.1.1, h.1.2, h.2, rfl⟩)

theorem kw_covered {w : String} (hw : w ∈ keywords) {cs : List Char} {s : Nat}
    (h : wholeWordAt w.toList cs s = true) {i : Nat}
    (hsi : s ≤ i) (his : i < s + w.toList.length) :
    coveredBy (Rule.kw w) cs i = true := by
  rw [coveredBy, List.any_eq_true]
  exact ⟨(s, w.toList.length), kw_scan_mem hw h, by
    simp only [Bool.and_eq_true, decide_eq_true_eq]
    exact ⟨hsi, his⟩⟩

theorem kw_not_covered {w : String} (hw : w ∈ keywords) {cs : List Char} {s : Nat}
    (hocc : occursAt w.toList cs s = true)
    (hbnd : leftBoundary cs s = false ∨ rightBoundary cs (s + w.toList.length) = false)
    {i : Nat} (hsi : s ≤ i) (his : i < s + w.toList.length) :
    coveredBy (Rule.kw w) cs i = false := by
  rw [coveredBy, List.any_eq_false]
  intro m hm
  obtain ⟨-, hmatch⟩ := mem_scanMatches _ _ hm
  have hnc := kwMatchAt_not_covering (keyword_wholeWordSafe hw) hocc hbnd hmatch hsi his
  simp only [Bool.and_eq_true, decide_eq_true_eq, not_and]
  intro h1 h2
  exact hnc ⟨h1, h2⟩

/-! ### Comment-rule lemmas -/

theorem comment_matchAt_pos (cs : List Char) :
    ∀ s L, matchAt Rule.comment cs s = some L → 0 < L := by
  intro s L h
  obtain ⟨-, -, -, rfl⟩ := commentMatchAt_eq_some h
  omega

theorem comment_noOverlap (cs : List Char) :
    ∀ s₁ L₁ s₂ L₂, matchAt Rule.comment cs s₁ = some L₁ → matchAt Rule.comment cs s₂ = some L₂ →
      s₁ < s₂ → s₁ + L₁ ≤ s₂ := by
  intro s₁ L₁ s₂ L₂ h₁ h₂ hlt
  obtain ⟨rfl, -⟩ := commentMatchAt_eq_some h₁
  obtain ⟨h0, -⟩ := commentMatchAt_eq_some h₂
  omega

theorem comment_full_match {cs : List Char} (hnl : '\n' ∉ cs)
    (hstar : cs.getD (wsPrefixLen cs) ' ' = '*')
    (hgt : cs.getD (wsPrefixLen cs + 1) ' ' = '>') :
    matchAt Rule.comment cs 0 = some cs.length := by
  have hk1 : wsPrefixLen cs + 1 < cs.length := getD_lt_length (d := ' ') (by rw [hgt]; decide)
  have htw : (cs.drop (wsPrefixLen cs + 2)).takeWhile (fun c => !(c == '\n')) =
      cs.drop (wsPrefixLen cs + 2) := by
    refine List.takeWhile_eq_self_iff.mpr ?_
    intro c hc
    have hmem : c ∈ cs := List.mem_of_mem_drop hc
    have hne : c ≠ '\n' := fun he => hnl (he ▸ hmem)
    simpa using hne
  show commentMatchAt cs 0 = some cs.length
  rw [commentMatchAt, if_pos (by decide : ((0 : Nat) == 0) = true)]
  rw [if_pos (by rw [Bool.and_eq_true, beq_iff_eq, beq_iff_eq]; exact ⟨hstar, hgt⟩)]
  rw [htw]
  congr 1
  simp only [List.length_drop]
  omega

theorem comment_covered {cs : List Char} (hnl : '\n' ∉ cs)
    (hstar : cs.getD (wsPrefixLen cs) ' ' = '*')
    (hgt : cs.getD (wsPrefixLen cs + 1) ' ' = '>') {i : Nat} (hi : i < cs.length) :
    coveredBy Rule.comment cs i = true := by
  rw [coveredBy, List.any_eq_true]
  refine ⟨(0, cs.length), ?_, ?_⟩
  · exact scanFromFuel_complete Rule.comment cs (comment_matchAt_pos cs) (comment_noOverlap cs)
      cs.length 0 0 cs.length (by omega) (Nat.le_refl _) (comment_full_match hnl hstar hgt)
  · simp only [Bool.and_eq_true, decide_eq_true_eq]
    omega

theorem comment_not_covered {cs : List Char}
    (h : ¬(cs.getD (wsPrefixLen cs) ' ' = '*' ∧ cs.getD (wsPrefixLen cs + 1) ' ' = '>')) :
    ∀ i, coveredBy Rule.comment cs i = false := by
  intro i
  rw [coveredBy, List.any_eq_false]
  intro m hm
  obtain ⟨-, hmatch⟩ := mem_scanMatches _ _ hm
  obtain ⟨-, h1, h2, -⟩ := commentMatchAt_eq_some hmatch
  exact absurd ⟨h1, h2⟩ h

/-! ### Category soundness -/

theorem catOf_eq_comment {r : Rule} : catOf r = Category.Comment ↔ r = Rule.comment := by
  cases r <;> simp [catOf]

theorem catOf_eq_keyword {r : Rule} : catOf r = Category.Keyword ↔ ∃ w, r = Rule.kw w := by
  cases r <;> simp [catOf]

theorem kw_mem_rules {w : String} (h : Rule.kw w ∈ highlighting_rules) : w ∈ keywords := by
  rw [highlighting_rules] at h
  rcases List.mem_append.mp h with h1 | h1
  · obtain ⟨w', hw', he⟩ := List.mem_map.mp h1
    injection he with he
    exact he ▸ hw'
  · simp at h1

/-- Any position finally classified Keyword lies inside a whole-word match
of one of the vocabulary's keyword rules, so its character is a character
of that keyword. -/
theorem classifyAt_keyword_char {cs : List Char} {i : Nat}
    (h : classifyAt cs i = some Category.Keyword) :
    ∃ w, w ∈ keywords ∧ ∃ j, j < w.toList.length ∧ cs.getD i ' ' = w.toList.getD j ' ' := by
  rw [classifyAt_eq_lastCoveringCat, lastCoveringCat] at h
  split at h
  · cases hfind : highlighting_rules.reverse.find? (fun r => coveredBy r cs i) with
    | none => rw [hfind] at h; cases h
    | some r =>
        rw [hfind] at h
        simp only [Option.map_some', Option.some.injEq] at h
        obtain ⟨w, rfl⟩ := catOf_eq_keyword.mp h
        have hw : w ∈ keywords :=
          kw_mem_rules (List.mem_reverse.mp (List.mem_of_find?_eq_some hfind))
        have hcov := List.find?_some hfind
        rw [coveredBy, List.any_eq_true] at hcov
        obtain ⟨m, hm, hcond⟩ := hcov
        simp only [Bool.and_eq_true, decide_eq_true_eq] at hcond
        obtain ⟨-, hmatch⟩ := mem_scanMatches _ _ hm
        obtain ⟨hocc, -, -, hL⟩ := kwMatchAt_eq_some.mp hmatch
        obtain ⟨-, haj⟩ := (occursAt_iff _ _ _).mp hocc
        refine ⟨w, hw, i - m.1, by omega, ?_⟩
        have hgd := haj (i - m.1) (by omega)
        rwa [Nat.add_sub_cancel' hcond.1] at hgd
  · cases h

theorem classifyAt_keyword_not_lower {cs : List Char} {i : Nat}
    (h : classifyAt cs i = some Category.Keyword) : (cs.getD i ' ').isLower = false := by
  obtain ⟨w, hw, j, hj, hc⟩ := classifyAt_keyword_char h
  rw [hc]
  refine keyword_char_not_lower hw ?_
  rw [List.getD_eq_getElem _ _ hj]
  exact List.getElem_mem hj

theorem drop_getD (l : List Char) (n j : Nat) (d : Char) :
    (l.drop n).getD j d = l.getD (n + j) d := by
  simp [List.getD_eq_getElem?_getD, List.getElem?_drop]

theorem rules_reverse :
    highlighting_rules.reverse =
      Rule.comment :: Rule.strLit '\'' :: Rule.strLit '"' :: (keywords.map Rule.kw).reverse := by
  rw [highlighting_rules, List.reverse_append]
  rfl

/-! ### Claim theorems -/

/-- C1: the classifier applies rules in the fixed order keywords first,
then string literals, then comments (first conjunct, the declared rule
order), and on overlapping matches the later-applied rule's category
overwrites the earlier one (second conjunct: the final category of every
position is that of the last covering rule in application order); in
particular, in `MOVE "IF" TO X` the span covering `"IF"` — positions 5
to 8 — is StringLiteral, not Keyword, while `MOVE` keeps Keyword (third
conjunct, computed). -/
theorem claim_C1_rule_order_last_wins :
    highlighting_rules =
      keywords.map Rule.kw ++ [Rule.strLit '"', Rule.strLit '\'', Rule.comment] ∧
    (∀ (cs : List Char) (i : Nat), classifyAt cs i = lastCoveringCat cs i) ∧
    classify ("MOVE \"IF\" TO X".toList) =
      [some Category.Keyword, some Category.Keyword, some Category.Keyword,
       some Category.Keyword, none,
       some Category.StringLiteral, some Category.StringLiteral,
       some Category.StringLiteral, some Category.StringLiteral,
       none, none, none, none, none] :=
  ⟨rfl, classifyAt_eq_lastCoveringCat, by decide⟩

/-- C2: on a line whose first non-whitespace characters are the comment
marker, every position from the marker to the end of the line is
classified Comment; on a line whose first non-whitespace token is not the
marker (every marker occurrence is preceded by some non-whitespace
character), no position is classified Comment. -/
theorem claim_C2_comment_line (cs : List Char) :
    ('\n' ∉ cs → cs.getD (wsPrefixLen cs) ' ' = '*' →
      cs.getD (wsPrefixLen cs + 1) ' ' = '>' →
      ∀ i, wsPrefixLen cs ≤ i → i < cs.length →
        classifyAt cs i = some Category.Comment) ∧
    (¬(cs.getD (wsPrefixLen cs) ' ' = '*' ∧ cs.getD (wsPrefixLen cs + 1) ' ' = '>') →
      ∀ i, classifyAt cs i ≠ some Category.Comment) := by
  constructor
  · intro hnl h1 h2 i hki hilen
    rw [classifyAt_eq_lastCoveringCat, lastCoveringCat, if_pos hilen, rules_reverse]
    have hfind : (Rule.comment :: Rule.strLit '\'' :: Rule.strLit '"' ::
        (keywords.map Rule.kw).reverse).find? (fun r => coveredBy r cs i) =
        some Rule.comment :=
      List.find?_cons_of_pos _ (comment_covered hnl h1 h2 hilen)
    rw [hfind]
    rfl
  · intro hm i
    by_cases hilen : i < cs.length
    · rw [classifyAt_eq_lastCoveringCat, lastCoveringCat, if_pos hilen]
      intro hcon
      cases hfind : highlighting_rules.reverse.find? (fun r => coveredBy r cs i) with
      | none => rw [hfind] at hcon; cases hcon
      | some r =>
          rw [hfind] at hcon
          simp only [Option.map_some', Option.some.injEq] at hcon
          obtain rfl := catOf_eq_comment.mp hcon
          have hcov := List.find?_some hfind
          rw [comment_not_covered hm i] at hcov
          cases hcov
    · rw [classifyAt_eq_lastCoveringCat, lastCoveringCat, if_neg hilen]
      intro hcon
      cases hcon

theorem claim_C2_witness :
    classifyAt (" *> hi".toList) 1 = some Category.Comment ∧
    classifyAt ("X *> y".toList) 2 ≠ some Category.Comment :=
  ⟨(claim_C2_comment_line (" *> hi".toList)).1 (by decide) (by decide) (by decide)
      1 (by decide) (by decide),
   (claim_C2_comment_line ("X *> y".toList)).2 (by decide) 2⟩

/-- C3: a declared keyword occurring as a whole word — bounded by a
non-word character or the unit boundary on both sides — yields a keyword
match at exactly that word's range (and every position of the word is
covered by the keyword's rule); when the same letters occur without a
word boundary (as a substring of a longer identifier), the keyword's rule
covers none of those positions.  The marking is rule-level: per C1, a
later string or comment rule may repaint the range. -/
theorem claim_C3_keyword_whole_word (cs : List Char) (w : String) (s : Nat)
    (hw : w ∈ keywords) :
    (wholeWordAt w.toList cs s = true →
      (s, w.toList.length) ∈ scanMatches (Rule.kw w) cs ∧
      ∀ i, s ≤ i → i < s + w.toList.length → coveredBy (Rule.kw w) cs i = true) ∧
    (occursAt w.toList cs s = true →
      (leftBoundary cs s = false ∨ rightBoundary cs (s + w.toList.length) = false) →
      ∀ i, s ≤ i → i < s + w.toList.length → coveredBy (Rule.kw w) cs i = false) :=
  ⟨fun h => ⟨kw_scan_mem hw h, fun _ h1 h2 => kw_covered hw h h1 h2⟩,
   fun hocc hbnd _ h1 h2 => kw_not_covered hw hocc hbnd h1 h2⟩

theorem claim_C3_witness :
    ((0, 4) ∈ scanMatches (Rule.kw "MOVE") ("MOVE X".toList) ∧
      coveredBy (Rule.kw "MOVE") ("MOVE X".toList) 2 = true) ∧
    coveredBy (Rule.kw "MOVE") ("MOVEX".toList) 2 = false := by
  have h1 := (claim_C3_keyword_whole_word ("MOVE X".toList) "MOVE" 0 (by decide)).1 (by decide)
  have h2 := (claim_C3_keyword_whole_word ("MOVEX".toList) "MOVE" 0 (by decide)).2
    (by decide) (Or.inr (by decide))
  exact ⟨⟨h1.1, h1.2 2 (by decide) (by decide)⟩, h2 2 (by decide) (by decide)⟩

/-- C4: every match reported by a string-literal rule is bounded by an
opening and an actual closing quote of its kind, with no same-kind quote
strictly inside (non-greedy: it ends at the next same-quote character);
and at an opening quote with no same-kind quote later on the line, the
rule's pattern produces no match starting at that quote. -/
theorem claim_C4_unterminated_string (q : Char) (cs : List Char) :
    (∀ s L, (s, L) ∈ scanMatches (Rule.strLit q) cs →
      2 ≤ L ∧ s + L ≤ cs.length ∧ cs.getD s ' ' = q ∧ cs.getD (s + L - 1) ' ' = q ∧
        ∀ j, s < j → j < s + L - 1 → cs.getD j ' ' ≠ q) ∧
    (∀ i, cs.getD i ' ' = q →
      (∀ j, j < cs.length → i < j → cs.getD j ' ' ≠ q) →
      matchAt (Rule.strLit q) cs i = none) := by
  constructor
  · intro s L hm
    obtain ⟨-, hmatch⟩ := mem_scanMatches _ _ hm
    obtain ⟨hs, hq, k, hk, rfl⟩ := strMatchAt_eq_some.mp hmatch
    obtain ⟨hklen, hkq, hprev⟩ := findClose_some hk
    have hdlen : (cs.drop (s + 1)).length = cs.length - (s + 1) := by simp
    refine ⟨by omega, by omega, hq, ?_, ?_⟩
    · have := hkq
      rw [drop_getD] at this
      have he : s + (k + 2) - 1 = s + 1 + k := by omega
      rw [he]
      exact this
    · intro j hj1 hj2
      have hji := hprev (j - (s + 1)) (by omega)
      rw [drop_getD] at hji
      have he : s + 1 + (j - (s + 1)) = j := by omega
      rw [he] at hji
      exact hji.1
  · intro i hqi hno
    show strMatchAt q cs i = none
    rw [strMatchAt]
    split
    · next hc =>
        rw [Bool.and_eq_true, decide_eq_true_eq] at hc
        rw [findClose_none, Option.map_none']
        intro j hj
        have hdlen : (cs.drop (i + 1)).length = cs.length - (i + 1) := by simp
        rw [drop_getD]
        exact hno (i + 1 + j) (by omega) (by omega)
    · rfl

theorem claim_C4_witness :
    (("x\"ab\"y".toList).getD 1 ' ' = '"' ∧ ("x\"ab\"y".toList).getD 4 ' ' = '"') ∧
    matchAt (Rule.strLit '"') ("a\"bc".toList) 1 = none := by
  have h1 := (claim_C4_unterminated_string '"' ("x\"ab\"y".toList)).1 1 4 (by decide)
  have h2 := (claim_C4_unterminated_string '"' ("a\"bc".toList)).2 1 (by decide) (by decide)
  exact ⟨⟨h1.2.2.1, h1.2.2.2.1⟩, h2⟩

theorem handle_compile_spawned (src exe : String) (eg ec ep : Option String) (pl : String)
    (run : CompileRequest → SpawnResult) (g : String)
    (hsrc : src ≠ "") (hexe : exe ≠ "") (hg : resolveGnubase eg pl = some g) :
    handle_compile_cobol (some src) exe eg ec ep pl run =
      mapSpawn (buildCompileRequest pl g ec ep exe src) run := by
  have hfal : falsyStr (some src) = false := by simp [falsyStr, hsrc]
  simp [handle_compile_cobol, hfal, hexe, hg]

theorem mapSpawn_snd (req : CompileRequest) (run : CompileRequest → SpawnResult) :
    (mapSpawn req run).2 = some req := by
  rw [mapSpawn]
  split
  · split <;> rfl
  · rfl
  · rfl

/-- C5: whenever the compile handler spawns the external process (a saved
source file, a chosen output path, and a resolved toolchain root), the
spawn outcome is mapped exactly as: exit status zero to Success; non-zero
exit status to Failure carrying the captured stderr; executable-not-found
at spawn time to ToolchainNotFound; any other spawn error to Failure
carrying the error's text. -/
theorem claim_C5_result_mapping (src exe : String) (eg ec ep : Option String) (pl : String)
    (run : CompileRequest → SpawnResult) (g : String)
    (hsrc : src ≠ "") (hexe : exe ≠ "") (hg : resolveGnubase eg pl = some g) :
    (∀ rc out err, run (buildCompileRequest pl g ec ep exe src) = .completed rc out err →
      rc = 0 → handle_compile_cobol (some src) exe eg ec ep pl run =
        (.success, some (buildCompileRequest pl g ec ep exe src))) ∧
    (∀ rc out err, run (buildCompileRequest pl g ec ep exe src) = .completed rc out err →
      rc ≠ 0 → handle_compile_cobol (some src) exe eg ec ep pl run =
        (.failure err, some (buildCompileRequest pl g ec ep exe src))) ∧
    (run (buildCompileRequest pl g ec ep exe src) = .fileNotFound →
      handle_compile_cobol (some src) exe eg ec ep pl run =
        (.toolchainNotFound, some (buildCompileRequest pl g ec ep exe src))) ∧
    (∀ msg, run (buildCompileRequest pl g ec ep exe src) = .spawnError msg →
      handle_compile_cobol (some src) exe eg ec ep pl run =
        (.failure msg, some (buildCompileRequest pl g ec ep exe src))) := by
  have hspawn := handle_compile_spawned src exe eg ec ep pl run g hsrc hexe hg
  refine ⟨?_, ?_, ?_, ?_⟩
  · intro rc out err hrun hrc
    rw [hspawn, mapSpawn, hrun]
    simp [hrc]
  · intro rc out err hrun hrc
    rw [hspawn, mapSpawn, hrun]
    simp [hrc]
  · intro hrun
    rw [hspawn, mapSpawn, hrun]
  · intro msg hrun
    rw [hspawn, mapSpawn, hrun]

theorem claim_C5_witness :
    handle_compile_cobol (some "prog.cbl") "prog" none none none "linux"
      (fun _ => SpawnResult.completed 1 "" "E: syntax error") =
      (CompileOutcome.failure "E: syntax error",
       some (buildCompileRequest "linux" "/usr/local" none none "prog" "prog.cbl")) :=
  (claim_C5_result_mapping "prog.cbl" "prog" none none none "linux"
      (fun _ => SpawnResult.completed 1 "" "E: syntax error") "/usr/local"
      (by decide) (by decide) (by decide)).2.1 1 "" "E: syntax error" rfl (by decide)

/-- C6: with no saved source file the compile handler refuses with its
save-first outcome (the spec's ConfigurationError for a missing source
file) and spawns no process; the handler performs no session mutation on
this path (the model returns no changed state). -/
theorem claim_C6_no_source_refusal (cf : Option String) (exe : String)
    (eg ec ep : Option String) (pl : String) (run : CompileRequest → SpawnResult)
    (h : falsyStr cf = true) :
    handle_compile_cobol cf exe eg ec ep pl run = (.noSourceFile, none) := by
  simp [handle_compile_cobol, h]

theorem claim_C6_witness :
    handle_compile_cobol none "out" none none none "linux"
      (fun _ => SpawnResult.fileNotFound) = (.noSourceFile, none) :=
  claim_C6_no_source_refusal none "out" none none none "linux" _ (by decide)

/-- C7: the toolchain root resolves in order — non-empty environment
override first, else the platform-keyed default constant (Windows or
darwin/linux), else the handler fails with the configuration error and
spawns nothing; and on success the spawned invocation is the argument
vector `[root/bin/cobc, -x, -o, output, source]` with the library-path
variable gaining the two toolchain lib subdirectories before its previous
value and the search-path variable gaining the toolchain bin directory
before its previous value. -/
theorem claim_C7_toolchain_resolution :
    (∀ (eg : Option String) (pl : String), falsyStr eg = false →
      resolveGnubase eg pl = eg) ∧
    (∀ (eg : Option String) (pl : String), falsyStr eg = true →
      platformStartsWith pl "win" = true → resolveGnubase eg pl = some winGnubaseDefault) ∧
    (∀ (eg : Option String) (pl : String), falsyStr eg = true →
      platformStartsWith pl "win" = false →
      (platformStartsWith pl "darwin" || platformStartsWith pl "linux") = true →
      resolveGnubase eg pl = some posixGnubaseDefault) ∧
    (∀ (src exe : String) (eg ec ep : Option String) (pl : String)
      (run : CompileRequest → SpawnResult), src ≠ "" → exe ≠ "" →
      resolveGnubase eg pl = none →
      handle_compile_cobol (some src) exe eg ec ep pl run = (.configurationError, none)) ∧
    (∀ (src exe : String) (eg ec ep : Option String) (pl : String)
      (run : CompileRequest → SpawnResult) (g : String), src ≠ "" → exe ≠ "" →
      resolveGnubase eg pl = some g →
      (handle_compile_cobol (some src) exe eg ec ep pl run).2 = some
        { argv := [joinPath pl (joinPath pl g "bin") (cobcName pl), "-x", "-o", exe, src]
          gnubase := g
          cobpath := joinPath pl (joinPath pl g "lib") "gnucobol" ++ envPathSep pl
              ++ joinPath pl (joinPath pl g "lib") "cobc" ++ envPathSep pl ++ ec.getD ""
          searchPath := joinPath pl g "bin" ++ envPathSep pl ++ ep.getD "" }) := by
  refine ⟨?_, ?_, ?_, ?_, ?_⟩
  · intro eg pl h
    simp [resolveGnubase, h]
  · intro eg pl h1 h2
    simp [resolveGnubase, h1, h2]
  · intro eg pl h1 h2 h3
    simp [resolveGnubase, h1, h2, h3]
  · intro src exe eg ec ep pl run hsrc hexe hres
    have hfal : falsyStr (some src) = false := by simp [falsyStr, hsrc]
    simp [handle_compile_cobol, hfal, hexe, hres]
  · intro src exe eg ec ep pl run g hsrc hexe hres
    rw [handle_compile_spawned src exe eg ec ep pl run g hsrc hexe hres, mapSpawn_snd,
      buildCompileRequest]

theorem claim_C7_witness :
    resolveGnubase (some "/opt/cob") "plan9" = some "/opt/cob" ∧
    resolveGnubase none "win32" = some winGnubaseDefault ∧
    resolveGnubase none "darwin" = some posixGnubaseDefault ∧
    handle_compile_cobol (some "p.cbl") "p" none none none "plan9"
      (fun _ => SpawnResult.fileNotFound) = (.configurationError, none) ∧
    (handle_compile_cobol (some "p.cbl") "p" none none none "linux"
      (fun _ => SpawnResult.fileNotFound)).2 = some
        { argv := ["/usr/local/bin/cobc", "-x", "-o", "p", "p.cbl"]
          gnubase := "/usr/local"
          cobpath := "/usr/local/lib/gnucobol:/usr/local/lib/cobc:"
          searchPath := "/usr/local/bin:" } :=
  ⟨claim_C7_toolchain_resolution.1 (some "/opt/cob") "plan9" (by decide),
   claim_C7_toolchain_resolution.2.1 none "win32" (by decide) (by decide),
   claim_C7_toolchain_resolution.2.2.1 none "darwin" (by decide) (by decide) (by decide),
   claim_C7_toolchain_resolution.2.2.2.1 "p.cbl" "p" none none none "plan9" _
     (by decide) (by decide) (by decide),
   claim_C7_toolchain_resolution.2.2.2.2 "p.cbl" "p" none none none "linux" _ "/usr/local"
     (by decide) (by decide) (by decide)⟩

/-- C8: the dirty flag is false immediately after every successful open
and after every successful save (also save-as, which writes through the
same path-saving operation), and any mutation of the content buffer sets
the dirty flag. -/
theorem claim_C8_dirty_invariant :
    (∀ (s : Session) (fp text : String), (open_file s fp (Except.ok text)).dirty = false) ∧
    (∀ (s : Session) (fp : String), (save_to_path s fp (Except.ok ())).dirty = false) ∧
    (∀ (s : Session) (text : String), (set_content s text).dirty = true) :=
  ⟨fun _ _ _ => rfl, fun _ _ => rfl, fun _ _ => rfl⟩

/-- C9: on a dirty session, unless the unsaved-changes prompt resolved
with the save reply, the new-file operation fails, aborting with the
session returned entirely unchanged (path, content and dirty flag) — in
particular on Cancel; on a non-dirty session it resets content to empty,
path to none and dirty to false. -/
theorem claim_C9_new_file_protocol :
    (∀ (s : Session) (r : PromptReply), s.dirty = true → r ≠ PromptReply.save →
      handle_new_file s r = NewFileResult.aborted s) ∧
    (∀ (s : Session) (r : PromptReply), s.dirty = false →
      handle_new_file s r = NewFileResult.created emptySession) ∧
    emptySession = { path := none, content := "", dirty := false } := by
  refine ⟨?_, ?_, rfl⟩
  · intro s r hd hr
    cases r with
    | save => exact absurd rfl hr
    | discard => simp [handle_new_file, hd]
    | cancel => simp [handle_new_file, hd]
  · intro s r hd
    simp [handle_new_file, hd]

theorem claim_C9_witness :
    handle_new_file { path := some "a.cbl", content := "X", dirty := true }
        PromptReply.cancel =
      NewFileResult.aborted { path := some "a.cbl", content := "X", dirty := true } ∧
    handle_new_file { path := some "a.cbl", content := "X", dirty := false }
        PromptReply.discard =
      NewFileResult.created emptySession :=
  ⟨claim_C9_new_file_protocol.1 _ PromptReply.cancel rfl (by decide),
   claim_C9_new_file_protocol.2.1 _ PromptReply.discard rfl⟩

/-- C10: keyword classification is case-sensitive: every position finally
classified Keyword holds a non-lowercase character (the vocabulary is
uppercase), so a keyword written in lowercase is never marked; computed
instances: the all-lowercase line `move 'a' to x.` and the mixed-case
word `Move X` produce no Keyword span anywhere. -/
theorem claim_C10_case_sensitive :
    (∀ (cs : List Char) (i : Nat), classifyAt cs i = some Category.Keyword →
      (cs.getD i ' ').isLower = false) ∧
    (∀ i, i < 14 → classifyAt ("move 'a' to x.".toList) i ≠ some Category.Keyword) ∧
    (∀ i, i < 6 → classifyAt ("Move X".toList) i ≠ some Category.Keyword) :=
  ⟨fun _ _ h => classifyAt_keyword_not_lower h, by decide, by decide⟩

theorem claim_C10_witness :
    (("MOVE X".toList).getD 0 ' ').isLower = false :=
  claim_C10_case_sensitive.1 ("MOVE X".toList) 0 (by decide)

end CobolIDE
